import Mathlib

/-!
Verification of the CJWorkbench `histogram` module (`histogram.py`).

The Python source computes over IEEE doubles; this development embeds the
arithmetic exactly over `ℚ` (every literal appearing in the algorithm and in
the test-suite is a decimal fraction, hence exactly representable).  The two
comparisons against irrational thresholds (`error >= math.sqrt(50)` etc.) are
embedded as the equivalent exact comparisons on squares: `error` is always
positive, so `error ≥ √k ↔ error ^ 2 ≥ k`.

Python failure modes are embedded as `Option`: `math.log10` of a non-positive
number raises `ValueError`, division by the integer `0` raises
`ZeroDivisionError`, `values.min()` of an empty array raises, and a missing
column raises `KeyError`; all of these become `none`.
-/

attribute [local semireducible] Rat.inv Rat.mul Rat.add Rat.sub Rat.ofScientific

namespace Hist

/-- One cell of a numeric pandas Series: a finite value, NaN (which also
models a missing/null cell, since pandas stores those as NaN in a float
column), or one of the two infinities. -/
inductive Cell where
  | num (q : ℚ)
  | nan
  | posInf
  | negInf
deriving DecidableEq

/-- The finite numeric content of a cell, if any. -/
def cellNum : Cell → Option ℚ
  | .num q => some q
  | _ => none

/-- `series.isin(set([np.inf, -np.inf, np.nan]))` for one cell (pandas
`isin` matches NaN against NaN). -/
def cellIsBad : Cell → Bool
  | .num _ => false
  | _ => true

/-- `safe_values` (histogram.py line 100): keep the cells that are not in
`{inf, -inf, nan}`, then read the remaining (all finite) cells off as
numbers (`.to_numpy()`). -/
def safe_values (series : List Cell) : List ℚ :=
  (series.filter (fun c => !cellIsBad c)).filterMap cellNum

/-- The spec's description of the dropping sanitizer: the subsequence of the
column's finite numeric values, in original order, with every NaN, +Inf and
-Inf entry removed. -/
def sanitizeDropSpec (series : List Cell) : List ℚ :=
  series.filterMap cellNum

/-- Modelled from the spec: the replace-policy sanitizer variant.  The
repository's older render variants (not under src/, §4.1 and §9 of the spec)
replace each missing or infinite entry with a caller-supplied constant
instead of dropping it. -/
def sanitize_replace (repl : ℚ) : List Cell → List ℚ
  | [] => []
  | c :: cs => (match c with | .num q => q | _ => repl) :: sanitize_replace repl cs

/-- Fuelled base-10 logarithm on `ℕ`: `natLog10Aux fuel n` is
`⌊log10 n⌋` provided `1 ≤ n ≤ fuel`. -/
def natLog10Aux : ℕ → ℕ → ℕ
  | 0, _ => 0
  | fuel + 1, n => if n < 10 then 0 else natLog10Aux fuel (n / 10) + 1

/-- `⌊log10 n⌋` for `1 ≤ n` (and `0` at `0`). -/
def natLog10 (n : ℕ) : ℕ := natLog10Aux n n

/-- `⌈log10 m⌉` for `1 ≤ m` (and `0` at `0`). -/
def cLog10 (m : ℕ) : ℕ := if m ≤ 1 then 0 else natLog10 (m - 1) + 1

/-- `math.floor(math.log10 q)` for a positive rational `q`, computed
exactly. -/
def floorLog10 (q : ℚ) : ℤ :=
  if 1 ≤ q then (natLog10 ⌊q⌋.toNat : ℤ) else -(cLog10 ⌈q⁻¹⌉.toNat : ℤ)

/-- The body of `_calc_tick_increment` after `step` has been computed
(histogram.py lines 26-44).  The float comparisons `error >= math.sqrt(50)`
etc. are embedded exactly as `error ^ 2 ≥ 50` etc. (`error > 0`). -/
def tickIncOf (step : ℚ) : ℚ :=
  let power : ℤ := floorLog10 step
  let error : ℚ := step / (10 : ℚ) ^ power
  let inc : ℚ :=
    if 50 ≤ error ^ 2 then 10
    else if 10 ≤ error ^ 2 then 5
    else if 2 ≤ error ^ 2 then 2
    else 1
  if 0 ≤ power then inc * (10 : ℚ) ^ power
  else -((10 : ℚ) ^ (-power)) / inc

/-- `_calc_tick_increment` (histogram.py lines 23-44).  `none` models the
`ZeroDivisionError` when `max(0, n_ticks) == 0` and the `ValueError` from
`math.log10` when `step <= 0`. -/
def _calc_tick_increment (start stop : ℚ) (n_ticks : ℤ) : Option ℚ :=
  if max 0 n_ticks = 0 then none
  else if (stop - start) / ((max 0 n_ticks : ℤ) : ℚ) ≤ 0 then none
  else some (tickIncOf ((stop - start) / ((max 0 n_ticks : ℤ) : ℚ)))

/-- `np.mod` (floored modulo) on rationals. -/
def ratMod (a b : ℚ) : ℚ := a - b * ⌊a / b⌋

/-- Python 3 `round` to an integer: nearest, ties to even. -/
def pyRound (q : ℚ) : ℤ :=
  let f : ℤ := ⌊q⌋
  let r : ℚ := q - f
  if r < 1 / 2 then f
  else if 1 / 2 < r then f + 1
  else if f % 2 = 0 then f else f + 1

/-- The quantized-data detection of `nice_range` (histogram.py lines 62-73):
`additional_step` is 1 when every sample value is an exact multiple of the
(sign-decoded) increment, else 0. -/
def quantized (values : List ℚ) (step : ℚ) : ℤ :=
  if 0 < step then
    if values.all (fun x => ratMod x step == 0) then 1 else 0
  else
    if values.all (fun x => ratMod (x * step) 1 == 0) then 1 else 0

/-- The first snap of `nice_range` (histogram.py lines 77-84): move `start`
down and `stop` up to multiples of the increment, branching on the
reciprocal-encoding sign of `step`. -/
def niceSnap1 (start stop step : ℚ) : ℚ × ℚ :=
  if 0 < step then
    (((⌊start / step⌋ : ℤ) : ℚ) * step, ((⌈stop / step⌉ : ℤ) : ℚ) * step)
  else
    (((⌈start * step⌉ : ℤ) : ℚ) / step, ((⌊stop * step⌋ : ℤ) : ℚ) / step)

/-- The final snap of `nice_range` (histogram.py lines 89-96): as
`niceSnap1` but `stop` gains `additional_step` increments, and the actual
bin count is derived with Python's `round`. -/
def niceSnap2 (start stop step : ℚ) (add : ℤ) : ℚ × ℚ × ℤ :=
  if 0 < step then
    let start2 : ℚ := ((⌊start / step⌋ : ℤ) : ℚ) * step
    let stop2 : ℚ := ((⌈stop / step⌉ + add : ℤ) : ℚ) * step
    (start2, stop2, pyRound ((stop2 - start2) / step))
  else
    let start2 : ℚ := ((⌈start * step⌉ : ℤ) : ℚ) / step
    let stop2 : ℚ := ((⌊stop * step⌋ - add : ℤ) : ℚ) / step
    (start2, stop2, pyRound (-step * (stop2 - start2)))

/-- `nice_range` (histogram.py lines 47-96).  `none` models the exceptions
propagated from `values.min()` on an empty array and from
`_calc_tick_increment`. -/
def nice_range (values : List ℚ) (n_bins : ℤ) : Option (ℚ × ℚ × ℤ) :=
  match values with
  | [] => none
  | v :: vs =>
    let start := vs.foldl min v
    let stop := vs.foldl max v
    match _calc_tick_increment start stop n_bins with
    | none => none
    | some step =>
      let add := quantized (v :: vs) step
      let p := niceSnap1 start stop step
      match _calc_tick_increment p.1 p.2 n_bins with
      | none => none
      | some step2 => some (niceSnap2 p.1 p.2 step2 add)

/-- The bin index `np.histogram` assigns a value in `[low, high]` over `n`
uniform bins on `[low, high]`: `⌊(v - low) * n / (high - low)⌋`, with the
maximum value clamped into the last (closed) bin. -/
def binIdx (low high : ℚ) (n : ℕ) (v : ℚ) : ℕ :=
  min (n - 1) (⌊(v - low) * n / (high - low)⌋).toNat

/-- The `n + 1` uniform bin edges `np.histogram` returns for
`bins=n, range=(low, high)` (numpy's `linspace(low, high, n+1)`). -/
def binEdges (low high : ℚ) (n : ℕ) : List ℚ :=
  (List.range (n + 1)).map (fun i : ℕ => low + (high - low) * (i : ℚ) / (n : ℚ))

/-- The per-bin counts of `np.histogram(values, bins=n, range=(low, high))`:
bin `i` counts the in-range values whose bin index is `i` (bins are
half-open, the last one closed; out-of-range values are ignored). -/
def histCounts (values : List ℚ) (low high : ℚ) (n : ℕ) : List ℕ :=
  (List.range n).map
    (fun i => values.countP (fun v => decide (low ≤ v ∧ v ≤ high ∧ binIdx low high n v = i)))

/-- `histogram` (histogram.py lines 104-124): compute the nice range, then
delegate to `np.histogram`.  `none` models the propagated exceptions
(including `np.histogram`'s rejection of a non-positive bin count or an
inverted range, neither of which `nice_range` can produce). -/
def histogram (values : List ℚ) (n_bins : ℤ) : Option (List ℕ × List ℚ) :=
  match nice_range values n_bins with
  | none => none
  | some (low, high, m) =>
    if 0 < m ∧ low < high then
      some (histCounts values low high m.toNat, binEdges low high m.toNat)
    else none

/-- `_pairwise` (histogram.py lines 12-20) on a list. -/
def pairwiseAdj (l : List ℚ) : List (ℚ × ℚ) := l.zip l.tail

/-- The user-facing outcome of `render`: the empty message of the happy
path, or one of the two error messages. -/
inductive RenderMessage where
  | empty
  | noColumnSelected
  | notEnoughValues
deriving DecidableEq

/-- `render` (histogram.py lines 153-230), restricted to its data content:
the returned table, the message, and the chart's bin records
`{min, max, n}` (`none` for the `render_message` error chart, which has no
data).  The title and the remaining Vega-Lite boilerplate carry no data and
are omitted.  The outer `Option` models the `KeyError` when the selected
column is absent from the table. -/
def render (table : List (String × List Cell)) (column : String) (n_buckets : ℤ) :
    Option (List (String × List Cell) × RenderMessage × Option (List (ℚ × ℚ × ℕ))) :=
  if column = "" then some (table, .noColumnSelected, none)
  else
    match table.lookup column with
    | none => none
    | some raw_series =>
      let n_bins : ℤ := max 2 (min 500 n_buckets)
      match safe_values raw_series with
      | [] => some (table, .notEnoughValues, none)
      | v :: vs =>
        if vs.foldl min v = vs.foldl max v then some (table, .notEnoughValues, none)
        else
          match histogram (v :: vs) n_bins with
          | none => none
          | some (counts, ticks) =>
            some (table, .empty,
              some ((counts.zip (pairwiseAdj ticks)).map (fun p => (p.2.1, p.2.2, p.1))))


/-! ### The floor-log₁₀ characterization -/

lemma natLog10Aux_spec : ∀ (fuel n : ℕ), 1 ≤ n → n ≤ fuel →
    10 ^ natLog10Aux fuel n ≤ n ∧ n < 10 ^ (natLog10Aux fuel n + 1) := by
  intro fuel
  induction fuel with
  | zero => intro n h1 h2; omega
  | succ fuel ih =>
    intro n h1 h2
    by_cases h10 : n < 10
    · simp only [natLog10Aux, if_pos h10]
      constructor
      · simpa using h1
      · simpa using h10
    · push_neg at h10
      have hrec := ih (n / 10) (by omega) (by omega)
      simp only [natLog10Aux, if_neg (by omega : ¬ n < 10)]
      constructor
      · calc 10 ^ (natLog10Aux fuel (n / 10) + 1)
            = 10 ^ natLog10Aux fuel (n / 10) * 10 := by ring
          _ ≤ (n / 10) * 10 := Nat.mul_le_mul_right _ hrec.1
          _ ≤ n := by omega
      · have h2' := hrec.2
        calc n < (n / 10 + 1) * 10 := by omega
          _ ≤ 10 ^ (natLog10Aux fuel (n / 10) + 1) * 10 := Nat.mul_le_mul_right _ (by omega)
          _ = 10 ^ (natLog10Aux fuel (n / 10) + 1 + 1) := by ring

lemma natLog10_spec (n : ℕ) (h : 1 ≤ n) :
    10 ^ natLog10 n ≤ n ∧ n < 10 ^ (natLog10 n + 1) :=
  natLog10Aux_spec n n h le_rfl

lemma cLog10_spec (m : ℕ) (hm : 2 ≤ m) :
    1 ≤ cLog10 m ∧ 10 ^ (cLog10 m - 1) < m ∧ m ≤ 10 ^ cLog10 m := by
  have h := natLog10_spec (m - 1) (by omega)
  unfold cLog10
  rw [if_neg (by omega)]
  refine ⟨by omega, ?_, ?_⟩
  · have h1 := h.1
    simp only [Nat.add_sub_cancel]
    omega
  · have h2 := h.2
    omega

lemma floorLog10_spec (q : ℚ) (hq : 0 < q) :
    (10 : ℚ) ^ floorLog10 q ≤ q ∧ q < (10 : ℚ) ^ (floorLog10 q + 1) := by
  unfold floorLog10
  by_cases h1 : 1 ≤ q
  · rw [if_pos h1]
    have hfl : (1 : ℤ) ≤ ⌊q⌋ := Int.le_floor.2 (by exact_mod_cast h1)
    have hspec := natLog10_spec ⌊q⌋.toNat (by omega)
    set k := natLog10 ⌊q⌋.toNat with hk
    constructor
    · calc (10 : ℚ) ^ ((k : ℕ) : ℤ) = ((10 ^ k : ℕ) : ℚ) := by
            rw [zpow_natCast]; push_cast; ring
        _ ≤ ((⌊q⌋.toNat : ℕ) : ℚ) := by exact_mod_cast hspec.1
        _ = ((⌊q⌋ : ℤ) : ℚ) := by
            exact_mod_cast congrArg (fun z : ℤ => (z : ℚ)) (by omega : (⌊q⌋.toNat : ℤ) = ⌊q⌋)
        _ ≤ q := Int.floor_le q
    · have hZ : ⌊q⌋ + 1 ≤ (10 : ℤ) ^ (k + 1) := by
        have h2' : (⌊q⌋.toNat : ℤ) < ((10 ^ (k + 1) : ℕ) : ℤ) := by exact_mod_cast hspec.2
        push_cast at h2'
        omega
      have hQ : (⌊q⌋ : ℚ) + 1 ≤ (10 : ℚ) ^ (((k : ℕ) : ℤ) + 1) := by
        have : ((⌊q⌋ + 1 : ℤ) : ℚ) ≤ (((10 : ℤ) ^ (k + 1) : ℤ) : ℚ) := by exact_mod_cast hZ
        push_cast at this
        rw [show ((k : ℕ) : ℤ) + 1 = ((k + 1 : ℕ) : ℤ) by push_cast; ring, zpow_natCast]
        linarith
      have := Int.lt_floor_add_one q
      linarith
  · rw [if_neg h1]
    push_neg at h1
    have hqi : 1 < q⁻¹ := (one_lt_inv₀ hq).2 h1
    have hm2 : (2 : ℤ) ≤ ⌈q⁻¹⌉ := by
      have : (1 : ℤ) < ⌈q⁻¹⌉ := Int.lt_ceil.2 (by exact_mod_cast hqi)
      omega
    have hmnn : (0 : ℤ) ≤ ⌈q⁻¹⌉ := by omega
    have hm : 2 ≤ ⌈q⁻¹⌉.toNat := by omega
    obtain ⟨hc1, hc2, hc3⟩ := cLog10_spec ⌈q⁻¹⌉.toNat hm
    set c := cLog10 ⌈q⁻¹⌉.toNat with hc
    have hpowpos : (0 : ℚ) < (10 : ℚ) ^ ((c : ℕ) : ℤ) := zpow_pos (by norm_num) _
    have h4 : q⁻¹ ≤ (10 : ℚ) ^ ((c : ℕ) : ℤ) := by
      calc q⁻¹ ≤ (⌈q⁻¹⌉ : ℚ) := Int.le_ceil _
        _ = ((⌈q⁻¹⌉.toNat : ℕ) : ℚ) := by
            rw [show ((⌈q⁻¹⌉.toNat : ℕ) : ℚ) = ((⌈q⁻¹⌉.toNat : ℤ) : ℚ) by push_cast; ring]
            rw [show (⌈q⁻¹⌉.toNat : ℤ) = ⌈q⁻¹⌉ by omega]
        _ ≤ ((10 ^ c : ℕ) : ℚ) := by exact_mod_cast hc3
        _ = (10 : ℚ) ^ ((c : ℕ) : ℤ) := by rw [zpow_natCast]; push_cast; ring
    constructor
    · rw [zpow_neg]
      have := (inv_le_inv₀ hpowpos (inv_pos.2 hq)).2 h4
      rwa [inv_inv] at this
    · have h5 : (10 : ℚ) ^ (((c : ℕ) : ℤ) - 1) < q⁻¹ := by
        have hcc : ((c : ℕ) : ℤ) - 1 = (((c - 1 : ℕ) : ℕ) : ℤ) := by omega
        rw [hcc, zpow_natCast]
        have hnat : ((10 ^ (c - 1) : ℕ) : ℚ) ≤ (⌈q⁻¹⌉ : ℚ) - 1 := by
          have h' : ((10 ^ (c - 1) : ℕ) : ℤ) ≤ ⌈q⁻¹⌉ - 1 := by
            have := hc2
            omega
          exact_mod_cast h'
        have hceil : (⌈q⁻¹⌉ : ℚ) - 1 < q⁻¹ := by
          have := Int.ceil_lt_add_one q⁻¹
          linarith
        calc ((10 : ℚ)) ^ (c - 1 : ℕ) = ((10 ^ (c - 1) : ℕ) : ℚ) := by push_cast; ring
          _ ≤ (⌈q⁻¹⌉ : ℚ) - 1 := hnat
          _ < q⁻¹ := hceil
      have hpow1pos : (0 : ℚ) < (10 : ℚ) ^ (((c : ℕ) : ℤ) - 1) := zpow_pos (by norm_num) _
      have := (inv_lt_inv₀ (inv_pos.2 hq) hpow1pos).2 h5
      rw [inv_inv] at this
      rw [show -((c : ℕ) : ℤ) + 1 = -(((c : ℕ) : ℤ) - 1) by ring, zpow_neg]
      exact this


/-! ### The tick increment is a signed nonzero value -/

lemma tickIncOf_pos_or_neg (step : ℚ) : 0 < tickIncOf step ∨ tickIncOf step < 0 := by
  unfold tickIncOf
  set power := floorLog10 step with hp
  set e2 := (step / (10 : ℚ) ^ power) ^ 2 with he
  have hinc : (0 : ℚ) <
      (if 50 ≤ e2 then (10 : ℚ) else if 10 ≤ e2 then 5 else if 2 ≤ e2 then 2 else 1) := by
    split_ifs <;> norm_num
  by_cases h0 : 0 ≤ power
  · left
    rw [if_pos h0]
    exact mul_pos hinc (zpow_pos (by norm_num) _)
  · right
    rw [if_neg h0]
    have : (0 : ℚ) < (10 : ℚ) ^ (-power) := zpow_pos (by norm_num) _
    exact div_neg_of_neg_of_pos (by linarith) hinc

lemma tickIncOf_ne_zero (step : ℚ) : tickIncOf step ≠ 0 := by
  rcases tickIncOf_pos_or_neg step with h | h
  · exact ne_of_gt h
  · exact ne_of_lt h

lemma calcTick_eq (a b : ℚ) (n : ℤ) (hab : a < b) (hn : 1 ≤ n) :
    _calc_tick_increment a b n = some (tickIncOf ((b - a) / (n : ℚ))) := by
  have hmax : max 0 n = n := max_eq_right (by omega)
  have hnpos : (0 : ℚ) < (n : ℚ) := by exact_mod_cast (by omega : (0 : ℤ) < n)
  have hstep : 0 < (b - a) / (n : ℚ) := div_pos (by linarith) hnpos
  unfold _calc_tick_increment
  rw [hmax, if_neg (by omega : ¬ n = 0), if_neg (not_le.2 hstep)]

/-! ### Rounding and snapping -/

lemma pyRound_intCast (k : ℤ) : pyRound (k : ℚ) = k := by
  unfold pyRound
  rw [Int.floor_intCast]
  norm_num

lemma quantized_nonneg (l : List ℚ) (s : ℚ) : 0 ≤ quantized l s := by
  unfold quantized
  split_ifs <;> norm_num

lemma floor_mul_le (a st : ℚ) (hst : 0 < st) : ((⌊a / st⌋ : ℤ) : ℚ) * st ≤ a := by
  have h := mul_le_mul_of_nonneg_right (Int.floor_le (a / st)) hst.le
  rwa [div_mul_cancel₀ _ (ne_of_gt hst)] at h

lemma le_ceil_mul (b st : ℚ) (hst : 0 < st) : b ≤ ((⌈b / st⌉ : ℤ) : ℚ) * st := by
  have h := mul_le_mul_of_nonneg_right (Int.le_ceil (b / st)) hst.le
  rwa [div_mul_cancel₀ _ (ne_of_gt hst)] at h

lemma ceil_div_le (a st : ℚ) (hst : st < 0) : ((⌈a * st⌉ : ℤ) : ℚ) / st ≤ a := by
  rw [div_le_iff_of_neg hst]
  exact Int.le_ceil (a * st)

lemma le_floor_div (b st : ℚ) (hst : st < 0) : b ≤ ((⌊b * st⌋ : ℤ) : ℚ) / st := by
  rw [le_div_iff_of_neg hst]
  exact Int.floor_le (b * st)

lemma niceSnap1_spec (a b st : ℚ) (hst : 0 < st ∨ st < 0) (hab : a < b) :
    (niceSnap1 a b st).1 ≤ a ∧ b ≤ (niceSnap1 a b st).2 ∧
      (niceSnap1 a b st).1 < (niceSnap1 a b st).2 := by
  unfold niceSnap1
  rcases hst with hpos | hneg
  · rw [if_pos hpos]
    refine ⟨floor_mul_le a st hpos, le_ceil_mul b st hpos, ?_⟩
    have hlt : ⌊a / st⌋ < ⌈b / st⌉ :=
      Int.floor_lt_ceil_of_lt ((div_lt_div_iff_of_pos_right hpos).2 hab)
    exact mul_lt_mul_of_pos_right (by exact_mod_cast hlt) hpos
  · rw [if_neg (by linarith : ¬ 0 < st)]
    refine ⟨ceil_div_le a st hneg, le_floor_div b st hneg, ?_⟩
    have hlt : ⌊b * st⌋ < ⌈a * st⌉ :=
      Int.floor_lt_ceil_of_lt (mul_lt_mul_of_neg_right hab hneg)
    rw [div_lt_div_right_of_neg hneg]
    exact_mod_cast hlt

lemma niceSnap2_spec (a b st : ℚ) (add : ℤ) (hst : 0 < st ∨ st < 0) (hadd : 0 ≤ add)
    (hab : a < b) :
    (niceSnap2 a b st add).1 ≤ a ∧ b ≤ (niceSnap2 a b st add).2.1 ∧
      (niceSnap2 a b st add).1 < (niceSnap2 a b st add).2.1 ∧
      1 ≤ (niceSnap2 a b st add).2.2 := by
  unfold niceSnap2
  rcases hst with hpos | hneg
  · rw [if_pos hpos]
    simp only
    have hlt : ⌊a / st⌋ < ⌈b / st⌉ :=
      Int.floor_lt_ceil_of_lt ((div_lt_div_iff_of_pos_right hpos).2 hab)
    refine ⟨floor_mul_le a st hpos, ?_, ?_, ?_⟩
    · calc b ≤ ((⌈b / st⌉ : ℤ) : ℚ) * st := le_ceil_mul b st hpos
        _ ≤ ((⌈b / st⌉ + add : ℤ) : ℚ) * st := by
            have : ((⌈b / st⌉ : ℤ) : ℚ) ≤ ((⌈b / st⌉ + add : ℤ) : ℚ) := by
              exact_mod_cast (by omega : ⌈b / st⌉ ≤ ⌈b / st⌉ + add)
            exact mul_le_mul_of_nonneg_right this hpos.le
    · have : ((⌊a / st⌋ : ℤ) : ℚ) < ((⌈b / st⌉ + add : ℤ) : ℚ) := by
        exact_mod_cast (by omega : ⌊a / st⌋ < ⌈b / st⌉ + add)
      exact mul_lt_mul_of_pos_right this hpos
    · have harg : (((⌈b / st⌉ + add : ℤ) : ℚ) * st - ((⌊a / st⌋ : ℤ) : ℚ) * st) / st
          = ((⌈b / st⌉ + add - ⌊a / st⌋ : ℤ) : ℚ) := by
        rw [← sub_mul, mul_div_cancel_right₀ _ (ne_of_gt hpos)]
        push_cast
        ring
      rw [harg, pyRound_intCast]
      omega
  · rw [if_neg (by linarith : ¬ 0 < st)]
    simp only
    have hlt : ⌊b * st⌋ < ⌈a * st⌉ :=
      Int.floor_lt_ceil_of_lt (mul_lt_mul_of_neg_right hab hneg)
    refine ⟨ceil_div_le a st hneg, ?_, ?_, ?_⟩
    · rw [le_div_iff_of_neg hneg]
      have := Int.floor_le (b * st)
      have hcast : ((⌊b * st⌋ - add : ℤ) : ℚ) ≤ ((⌊b * st⌋ : ℤ) : ℚ) := by
        exact_mod_cast (by omega : ⌊b * st⌋ - add ≤ ⌊b * st⌋)
      linarith
    · rw [div_lt_div_right_of_neg hneg]
      exact_mod_cast (by omega : ⌊b * st⌋ - add < ⌈a * st⌉)
    · have harg : -st * (((⌊b * st⌋ - add : ℤ) : ℚ) / st - ((⌈a * st⌉ : ℤ) : ℚ) / st)
          = ((⌈a * st⌉ - ⌊b * st⌋ + add : ℤ) : ℚ) := by
        rw [div_sub_div_same, neg_mul, mul_div_cancel₀ _ (ne_of_lt hneg)]
        push_cast
        ring
      rw [harg, pyRound_intCast]
      omega

/-! ### The nice-range master lemma -/

lemma calcTick_sign (a b : ℚ) (n : ℤ) (hab : a < b) (hn : 1 ≤ n) :
    ∃ st, _calc_tick_increment a b n = some st ∧ (0 < st ∨ st < 0) :=
  ⟨_, calcTick_eq a b n hab hn, tickIncOf_pos_or_neg _⟩

lemma niceRange_cons (v : ℚ) (vs : List ℚ) (n : ℤ) (st st2 : ℚ)
    (h1 : _calc_tick_increment (vs.foldl min v) (vs.foldl max v) n = some st)
    (h2 : _calc_tick_increment (niceSnap1 (vs.foldl min v) (vs.foldl max v) st).1
          (niceSnap1 (vs.foldl min v) (vs.foldl max v) st).2 n = some st2) :
    nice_range (v :: vs) n =
      some (niceSnap2 (niceSnap1 (vs.foldl min v) (vs.foldl max v) st).1
        (niceSnap1 (vs.foldl min v) (vs.foldl max v) st).2 st2
        (quantized (v :: vs) st)) := by
  simp only [nice_range, h1, h2]

lemma niceRange_spec (v : ℚ) (vs : List ℚ) (n : ℤ)
    (h : vs.foldl min v < vs.foldl max v) (hn : 1 ≤ n) :
    ∃ s t b, nice_range (v :: vs) n = some (s, t, b) ∧
      s ≤ vs.foldl min v ∧ vs.foldl max v ≤ t ∧ s < t ∧ 1 ≤ b := by
  obtain ⟨st, h1, hsgn⟩ := calcTick_sign _ _ n h hn
  obtain ⟨hs1a, hs1b, hs1lt⟩ := niceSnap1_spec _ _ st hsgn h
  obtain ⟨st2, h2, hsgn2⟩ := calcTick_sign _ _ n hs1lt hn
  obtain ⟨hf1, hf2, hf3, hf4⟩ :=
    niceSnap2_spec _ _ st2 (quantized (v :: vs) st) hsgn2 (quantized_nonneg _ _) hs1lt
  exact ⟨_, _, _, niceRange_cons v vs n st st2 h1 h2,
    le_trans hf1 hs1a, le_trans hs1b hf2, hf3, hf4⟩

lemma niceRange_degenerate (v : ℚ) (vs : List ℚ) (n : ℤ)
    (h : vs.foldl min v = vs.foldl max v) : nice_range (v :: vs) n = none := by
  have htick : _calc_tick_increment (vs.foldl min v) (vs.foldl max v) n = none := by
    unfold _calc_tick_increment
    by_cases h0 : max 0 n = 0
    · rw [if_pos h0]
    · rw [if_neg h0, if_pos (by rw [h]; simp)]
  simp only [nice_range, htick]

/-! ### The histogram wrapper -/

lemma histogram_eq (values : List ℚ) (n : ℤ) (low high : ℚ) (m : ℤ)
    (hnr : nice_range values n = some (low, high, m)) (hm : 1 ≤ m) (hlh : low < high) :
    histogram values n = some (histCounts values low high m.toNat, binEdges low high m.toNat) := by
  simp only [histogram, hnr]
  rw [if_pos (⟨by omega, hlh⟩ : 0 < m ∧ low < high)]

lemma histCounts_length (values : List ℚ) (low high : ℚ) (n : ℕ) :
    (histCounts values low high n).length = n := by
  simp [histCounts]

lemma binEdges_length (low high : ℚ) (n : ℕ) : (binEdges low high n).length = n + 1 := by
  unfold binEdges
  rw [List.length_map, List.length_range]

/-! ### Summing the bin counts -/

lemma sumMapAdd (xs : List ℕ) (f g : ℕ → ℕ) :
    (xs.map (fun i => f i + g i)).sum = (xs.map f).sum + (xs.map g).sum := by
  induction xs with
  | nil => simp
  | cons x t ih => simp [ih]; omega

lemma sumIndicatorOut (n j : ℕ) (h : n ≤ j) :
    ((List.range n).map (fun i => if j = i then (1 : ℕ) else 0)).sum = 0 := by
  induction n with
  | zero => simp
  | succ n ih =>
    rw [List.range_succ, List.map_append, List.sum_append, ih (by omega)]
    simp [if_neg (by omega : ¬ j = n)]

lemma sumIndicator (n j : ℕ) (h : j < n) :
    ((List.range n).map (fun i => if j = i then (1 : ℕ) else 0)).sum = 1 := by
  induction n with
  | zero => omega
  | succ n ih =>
    rw [List.range_succ, List.map_append, List.sum_append]
    rcases Nat.lt_or_ge j n with hj | hj
    · rw [ih hj]
      simp [if_neg (by omega : ¬ j = n)]
    · have hjn : j = n := by omega
      subst hjn
      rw [sumIndicatorOut j j le_rfl]
      simp

lemma binIdx_lt (low high : ℚ) (n : ℕ) (v : ℚ) (hn : 1 ≤ n) : binIdx low high n v < n := by
  unfold binIdx
  omega

lemma histCounts_sum (l : List ℚ) (low high : ℚ) (n : ℕ) (hn : 1 ≤ n)
    (hin : ∀ x ∈ l, low ≤ x ∧ x ≤ high) :
    (histCounts l low high n).sum = l.length := by
  induction l with
  | nil => simp [histCounts]
  | cons v t ih =>
    have hv := hin v (List.mem_cons_self v t)
    have hrest : ∀ x ∈ t, low ≤ x ∧ x ≤ high := fun x hx => hin x (List.mem_cons_of_mem v hx)
    have hcons : (List.range n).map
          (fun i => (v :: t).countP
            (fun x => decide (low ≤ x ∧ x ≤ high ∧ binIdx low high n x = i)))
        = (List.range n).map
          (fun i => t.countP
              (fun x => decide (low ≤ x ∧ x ≤ high ∧ binIdx low high n x = i)) +
            (if binIdx low high n v = i then 1 else 0)) := by
      refine List.map_congr_left (fun i _ => ?_)
      rw [List.countP_cons]
      congr 1
      simp [hv.1, hv.2]
    unfold histCounts at ih ⊢
    rw [hcons, sumMapAdd, ih hrest, sumIndicator n _ (binIdx_lt low high n v hn)]
    simp

/-! ### The extreme bin edges -/

lemma binEdges_head (low high : ℚ) (n : ℕ) : (binEdges low high n).head? = some low := by
  unfold binEdges
  rw [List.range_succ_eq_map]
  simp

lemma binEdges_getLast (low high : ℚ) (n : ℕ) (hn : 1 ≤ n) :
    (binEdges low high n).getLast? = some high := by
  have hne : (n : ℚ) ≠ 0 := Nat.cast_ne_zero.2 (by omega)
  unfold binEdges
  rw [List.range_succ, List.map_append]
  simp only [List.map_cons, List.map_nil, List.getLast?_concat]
  congr 1
  field_simp

/-! ### Extrema of a fold -/

lemma foldl_min_le_init (vs : List ℚ) : ∀ a : ℚ, vs.foldl min a ≤ a := by
  induction vs with
  | nil => intro a; simp
  | cons y ys ih =>
    intro a
    simpa using le_trans (ih (min a y)) (min_le_left a y)

lemma foldl_min_le_mem (vs : List ℚ) : ∀ a x : ℚ, x ∈ vs → vs.foldl min a ≤ x := by
  induction vs with
  | nil => intro a x hx; simp at hx
  | cons y ys ih =>
    intro a x hx
    rcases List.mem_cons.1 hx with rfl | hx'
    · simpa using le_trans (foldl_min_le_init ys (min a x)) (min_le_right a x)
    · simpa using ih (min a y) x hx'

lemma le_foldl_max_init (vs : List ℚ) : ∀ a : ℚ, a ≤ vs.foldl max a := by
  induction vs with
  | nil => intro a; simp
  | cons y ys ih =>
    intro a
    simpa using le_trans (le_max_left a y) (ih (max a y))

lemma le_foldl_max_mem (vs : List ℚ) : ∀ a x : ℚ, x ∈ vs → x ≤ vs.foldl max a := by
  induction vs with
  | nil => intro a x hx; simp at hx
  | cons y ys ih =>
    intro a x hx
    rcases List.mem_cons.1 hx with rfl | hx'
    · simpa using le_trans (le_max_right a x) (le_foldl_max_init ys (max a x))
    · simpa using ih (max a y) x hx'

lemma mem_ge_foldl_min (v : ℚ) (vs : List ℚ) (x : ℚ) (hx : x ∈ v :: vs) :
    vs.foldl min v ≤ x := by
  rcases List.mem_cons.1 hx with rfl | h
  · exact foldl_min_le_init vs x
  · exact foldl_min_le_mem vs v x h

lemma mem_le_foldl_max (v : ℚ) (vs : List ℚ) (x : ℚ) (hx : x ∈ v :: vs) :
    x ≤ vs.foldl max v := by
  rcases List.mem_cons.1 hx with rfl | h
  · exact le_foldl_max_init vs x
  · exact le_foldl_max_mem vs v x h

/-! ### The histogram master lemma -/

lemma histogram_master (v : ℚ) (vs : List ℚ) (n : ℤ)
    (h : vs.foldl min v < vs.foldl max v) (hn : 1 ≤ n) :
    ∃ low high m, nice_range (v :: vs) n = some (low, high, m) ∧ 1 ≤ m ∧ low < high ∧
      histogram (v :: vs) n =
        some (histCounts (v :: vs) low high m.toNat, binEdges low high m.toNat) ∧
      (histCounts (v :: vs) low high m.toNat).sum = (v :: vs).length := by
  obtain ⟨low, high, m, hnr, hle, hge, hlh, hm⟩ := niceRange_spec v vs n h hn
  refine ⟨low, high, m, hnr, hm, hlh, histogram_eq _ n low high m hnr hm hlh, ?_⟩
  refine histCounts_sum _ low high m.toNat (by omega) ?_
  intro x hx
  exact ⟨le_trans hle (mem_ge_foldl_min v vs x hx), le_trans (mem_le_foldl_max v vs x hx) hge⟩

/-! ### Sanitizer lemmas -/

lemma safe_values_eq (s : List Cell) : safe_values s = sanitizeDropSpec s := by
  induction s with
  | nil => rfl
  | cons c t ih =>
    cases c <;>
      simp only [safe_values, sanitizeDropSpec, cellIsBad, cellNum, List.filter_cons,
        List.filterMap_cons, Bool.not_false, Bool.not_true, ite_true, ite_false] at ih ⊢ <;>
      simp [ih]

lemma sanitize_replace_eq_map (repl : ℚ) (s : List Cell) :
    sanitize_replace repl s = s.map (fun c => (cellNum c).getD repl) := by
  induction s with
  | nil => rfl
  | cons c t ih => cases c <;> simp [sanitize_replace, cellNum, ih]

/-! ### Claim theorems -/

/-- Claim C2: for the quantized sample `[1,2,3,4,5,6]`, `nice_range` with requested
bin count 5, 6 or 7 returns `(1, 7, 6)` in every case: every sample value is an
exact multiple of the chosen increment, so one extra bin is added by extending
`stop` by one increment. -/
theorem nice_range_die_roll :
    nice_range [(1 : ℚ), 2, 3, 4, 5, 6] 5 = some (1, 7, 6) ∧
    nice_range [(1 : ℚ), 2, 3, 4, 5, 6] 6 = some (1, 7, 6) ∧
    nice_range [(1 : ℚ), 2, 3, 4, 5, 6] 7 = some (1, 7, 6) :=
  ⟨by decide, by decide, by decide⟩

/-- Claim C4: for every sample `v :: vs` whose minimum and maximum differ and every
requested bin count `n ≥ 1`, the `(start, stop, bin_count)` returned by `nice_range`
satisfies `start < stop`, `bin_count ≥ 1`, `start ≤ min(sample)` and
`stop ≥ max(sample)`: the returned range always brackets the data. -/
theorem nice_range_brackets_data (v : ℚ) (vs : List ℚ) (n : ℤ)
    (h : vs.foldl min v < vs.foldl max v) (hn : 1 ≤ n) :
    ∃ s t b, nice_range (v :: vs) n = some (s, t, b) ∧
      s < t ∧ 1 ≤ b ∧ s ≤ vs.foldl min v ∧ vs.foldl max v ≤ t := by
  obtain ⟨s, t, b, hnr, hle, hge, hlt, hb⟩ := niceRange_spec v vs n h hn
  exact ⟨s, t, b, hnr, hlt, hb, hle, hge⟩

/-- Witness for C4 at the sample `[0, 1]` with 2 requested bins. -/
theorem nice_range_brackets_data_witness :
    ([(1 : ℚ)].foldl min 0 < [(1 : ℚ)].foldl max 0) ∧ (1 : ℤ) ≤ 2 ∧
    ∃ s t b, nice_range [(0 : ℚ), 1] 2 = some (s, t, b) ∧
      s < t ∧ 1 ≤ b ∧ s ≤ [(1 : ℚ)].foldl min 0 ∧ [(1 : ℚ)].foldl max 0 ≤ t :=
  ⟨by decide, by decide, nice_range_brackets_data 0 [1] 2 (by decide) (by decide)⟩

/-- Claim C5 counterexample: `nice_range` is not a fixed point under re-application.
`nice_range([-8, 22], 4)` returns `(-10, 30, 4)`, but feeding `(-10, 30)` back in
with the same requested bin count yields `(-10, 40, 5)` — the quantized-data rule
fires on the snapped bounds and extends `stop` by one more increment. -/
theorem nice_range_not_idempotent :
    nice_range [(-8 : ℚ), 22] 4 = some (-10, 30, 4) ∧
    nice_range [(-10 : ℚ), 30] 4 = some (-10, 40, 5) ∧
    nice_range [(-10 : ℚ), 30] 4 ≠ some (-10, 30, 4) :=
  ⟨by decide, by decide, by decide⟩

/-- Claim C5 as amended: re-application of `nice_range` to its own output bounds is
not in general a fixed point (the quantized-data extra-bin rule can extend `stop`
by one increment, as at `(-10, 30, 4) ↦ (-10, 40, 5)`); what holds is that the
re-applied range still brackets the first one: `start2 ≤ start` and `stop ≤ stop2`. -/
theorem nice_range_refeed_brackets (a b : ℚ) (n : ℤ) (s t : ℚ) (c : ℤ)
    (hab : a < b) (hn : 1 ≤ n) (hfirst : nice_range [a, b] n = some (s, t, c)) :
    ∃ s2 t2 c2, nice_range [s, t] n = some (s2, t2, c2) ∧ s2 ≤ s ∧ t ≤ t2 := by
  have hmin : [b].foldl min a = a := by
    simp [min_eq_left hab.le]
  have hmax : [b].foldl max a = b := by
    simp [max_eq_right hab.le]
  obtain ⟨s0, t0, c0, hnr0, _, _, hst0, _⟩ :=
    niceRange_spec a [b] n (by rw [hmin, hmax]; exact hab) hn
  rw [hfirst] at hnr0
  simp only [Option.some.injEq, Prod.mk.injEq] at hnr0
  obtain ⟨h1, h2, h3⟩ := hnr0
  subst h1
  subst h2
  subst h3
  have hmin2 : [t].foldl min s = s := by
    simp [min_eq_left hst0.le]
  have hmax2 : [t].foldl max s = t := by
    simp [max_eq_right hst0.le]
  obtain ⟨s2, t2, c2, hnr2, hle2, hge2, _, _⟩ :=
    niceRange_spec s [t] n (by rw [hmin2, hmax2]; exact hst0) hn
  rw [hmin2] at hle2
  rw [hmax2] at hge2
  exact ⟨s2, t2, c2, hnr2, hle2, hge2⟩

/-- Witness for the amended C5 at `(-8, 22)` with 4 requested bins. -/
theorem nice_range_refeed_brackets_witness :
    ((-8 : ℚ) < 22) ∧ ((1 : ℤ) ≤ 4) ∧
    nice_range [(-8 : ℚ), 22] 4 = some (-10, 30, 4) ∧
    ∃ s2 t2 c2, nice_range [(-10 : ℚ), 30] 4 = some (s2, t2, c2) ∧
      s2 ≤ -10 ∧ (30 : ℚ) ≤ t2 :=
  ⟨by decide, by decide, by decide,
    nice_range_refeed_brackets (-8) 22 4 (-10) 30 4 (by decide) (by decide) (by decide)⟩

/-- Claim C6 counterexample: invoked directly with a zero-width domain
(`min == max`), `nice_range` does not widen the interval: the tick step is `0`,
`math.log10(0)` raises `ValueError` (embedded as `none`), so no bracketing
interval is returned. -/
theorem nice_range_degenerate_is_error : nice_range [(1 : ℚ), 1] 5 = none := by
  decide

/-- Claim C6 as amended: when the sample minimum equals the sample maximum,
`nice_range` fails (the tick computation divides a zero step's logarithm,
raising `ValueError`) instead of widening; the degenerate case must be guarded
by the caller, as `render` does. -/
theorem nice_range_degenerate_raises (v : ℚ) (vs : List ℚ) (n : ℤ)
    (h : vs.foldl min v = vs.foldl max v) : nice_range (v :: vs) n = none :=
  niceRange_degenerate v vs n h

/-- Witness for the amended C6 at the one-element sample `[2]` with 7 bins. -/
theorem nice_range_degenerate_raises_witness :
    (([] : List ℚ).foldl min 2 = ([] : List ℚ).foldl max 2) ∧
    nice_range [(2 : ℚ)] 7 = none :=
  ⟨by decide, nice_range_degenerate_raises 2 [] 7 (by decide)⟩

/-- Claim C7: `nice_range` on the bounds `(-0.04, 0.8)` with requested bin count 10
returns `(-0.1, 0.8, 9)`, and the bin count it returns is what `histogram` actually
uses downstream: the histogram has 9 counts and 10 edges, fewer bins than the 10
requested. -/
theorem nice_range_reduces_requested_bins :
    nice_range [-1/25, 4/5] 10 = some (-1/10, 4/5, 9) ∧
    histogram [-1/25, 4/5] 10 =
      some ([1, 0, 0, 0, 0, 0, 0, 0, 1],
        [-1/10, 0, 1/10, 1/5, 3/10, 2/5, 1/2, 3/5, 7/10, 4/5]) ∧
    (histogram [-1/25, 4/5] 10).map (fun r => r.1.length) = some 9 :=
  ⟨by decide, by decide, by decide⟩

/-- Claim C8: under the dropping policy the sanitizer returns, for every input
column, the subsequence of its finite numeric values in original order with every
NaN, `+inf` and `-inf` entry removed (it is a total function, so it never raises),
it returns the empty sample when the column has no finite numeric content, and in
particular `safe_values [1.0, inf, -inf, NaN] = [1.0]`. -/
theorem safe_values_dropping_policy :
    safe_values [Cell.num 1, Cell.posInf, Cell.negInf, Cell.nan] = [1] ∧
    (∀ series : List Cell, safe_values series = sanitizeDropSpec series) ∧
    (∀ series : List Cell, (∀ c ∈ series, cellNum c = none) → safe_values series = []) := by
  refine ⟨by decide, safe_values_eq, fun s h => ?_⟩
  rw [safe_values_eq]
  exact List.filterMap_eq_nil_iff.2 h

/-- Witness for C8: a column holding only a NaN sanitizes to the empty sample. -/
theorem safe_values_dropping_policy_witness : safe_values [Cell.nan] = [] :=
  safe_values_dropping_policy.2.2 [Cell.nan] (by decide)

/-- Claim C10: the replace-policy sanitizer (spec-modelled; it lives in the
repository's older render variants, outside src/) replaces each missing or
infinite entry with the caller-supplied constant instead of dropping it, keeps
finite values, and preserves the column length; in particular with replacement
value `2.0`, `sanitize([1.0, inf, -inf])` yields `[1.0, 2.0, 2.0]`. -/
theorem sanitize_replace_policy :
    sanitize_replace 2 [Cell.num 1, Cell.posInf, Cell.negInf] = [1, 2, 2] ∧
    (∀ (repl : ℚ) (series : List Cell),
      sanitize_replace repl series = series.map (fun c => (cellNum c).getD repl)) ∧
    (∀ (repl : ℚ) (series : List Cell),
      (sanitize_replace repl series).length = series.length) := by
  refine ⟨by decide, sanitize_replace_eq_map, fun repl s => ?_⟩
  rw [sanitize_replace_eq_map, List.length_map]

/-- Claim C3: for every sample `v :: vs` whose minimum and maximum differ and
every requested bin count `n ≥ 1`, `histogram` returns `(counts, edges)` with
`edges.length = counts.length + 1`, and `counts.sum` equals the sample length
whenever every sample value lies within `[edges[0], edges[-1]]`. -/
theorem histogram_counts_partition (v : ℚ) (vs : List ℚ) (n : ℤ)
    (h : vs.foldl min v < vs.foldl max v) (hn : 1 ≤ n) :
    ∃ counts edges, histogram (v :: vs) n = some (counts, edges) ∧
      edges.length = counts.length + 1 ∧
      ((∀ x ∈ v :: vs, ∀ e0 ∈ edges.head?, ∀ e1 ∈ edges.getLast?, e0 ≤ x ∧ x ≤ e1) →
        counts.sum = (v :: vs).length) := by
  obtain ⟨low, high, m, _, hm, hlh, hhist, hsum⟩ := histogram_master v vs n h hn
  refine ⟨_, _, hhist, ?_, fun _ => hsum⟩
  rw [histCounts_length, binEdges_length]

/-- Witness for C3 at the sample `[0, 1]` with 2 requested bins. -/
theorem histogram_counts_partition_witness :
    ([(1 : ℚ)].foldl min 0 < [(1 : ℚ)].foldl max 0) ∧ (1 : ℤ) ≤ 2 ∧
    ∃ counts edges, histogram [(0 : ℚ), 1] 2 = some (counts, edges) ∧
      edges.length = counts.length + 1 ∧
      ((∀ x ∈ [(0 : ℚ), 1], ∀ e0 ∈ edges.head?, ∀ e1 ∈ edges.getLast?, e0 ≤ x ∧ x ≤ e1) →
        counts.sum = [(0 : ℚ), 1].length) :=
  ⟨by decide, by decide, histogram_counts_partition 0 [1] 2 (by decide) (by decide)⟩

/-- Claim C9: for every table and parameter set selecting an existing column, if
the sanitized sample is empty or its values span a zero-width domain, `render`
returns the `notEnoughValues` message with the input table unchanged and no chart
data (the Binner is not invoked); and this is the only validation needed — when
the sanitized sample has two distinct values, `render` produces a chart. -/
theorem render_validation (table : List (String × List Cell)) (column : String)
    (series : List Cell) (nb : ℤ) (hcol : column ≠ "")
    (hlook : table.lookup column = some series) :
    ((safe_values series = [] ∨
        ∃ w ws, safe_values series = w :: ws ∧ ws.foldl min w = ws.foldl max w) →
      render table column nb = some (table, RenderMessage.notEnoughValues, none)) ∧
    ((∃ w ws, safe_values series = w :: ws ∧ ws.foldl min w < ws.foldl max w) →
      ∃ bins, render table column nb = some (table, RenderMessage.empty, some bins)) := by
  constructor
  · rintro (hempty | ⟨w, ws, hsv, heq⟩)
    · unfold render
      rw [if_neg hcol]
      simp only [hlook, hempty]
    · unfold render
      rw [if_neg hcol]
      simp only [hlook, hsv]
      rw [if_pos heq]
  · rintro ⟨w, ws, hsv, hlt⟩
    have hn2 : (1 : ℤ) ≤ max 2 (min 500 nb) := le_trans (by norm_num) (le_max_left 2 _)
    obtain ⟨low, high, m, _, hm, hlh, hhist, _⟩ := histogram_master w ws (max 2 (min 500 nb)) hlt hn2
    have hrender : render table column nb = some (table, RenderMessage.empty,
        some (((histCounts (w :: ws) low high m.toNat).zip
          (pairwiseAdj (binEdges low high m.toNat))).map (fun p => (p.2.1, p.2.2, p.1)))) := by
      unfold render
      rw [if_neg hcol]
      simp only [hlook, hsv, if_neg (ne_of_lt hlt)]
      simp only [hhist]
    exact ⟨_, hrender⟩

/-- Witness for C9 on a one-column table whose two cells are equal. -/
theorem render_validation_witness :
    ("A" : String) ≠ "" ∧
    ([("A", [Cell.num 1, Cell.num 1])].lookup "A" = some [Cell.num 1, Cell.num 1]) ∧
    (((safe_values [Cell.num 1, Cell.num 1] = [] ∨
        ∃ w ws, safe_values [Cell.num 1, Cell.num 1] = w :: ws ∧
          ws.foldl min w = ws.foldl max w) →
      render [("A", [Cell.num 1, Cell.num 1])] "A" 5 =
        some ([("A", [Cell.num 1, Cell.num 1])], RenderMessage.notEnoughValues, none)) ∧
    ((∃ w ws, safe_values [Cell.num 1, Cell.num 1] = w :: ws ∧
        ws.foldl min w < ws.foldl max w) →
      ∃ bins, render [("A", [Cell.num 1, Cell.num 1])] "A" 5 =
        some ([("A", [Cell.num 1, Cell.num 1])], RenderMessage.empty, some bins))) :=
  ⟨by decide, by decide,
    render_validation [("A", [Cell.num 1, Cell.num 1])] "A" [Cell.num 1, Cell.num 1] 5
      (by decide) (by decide)⟩

/-- Claim C1: for every `start < stop` and every integer `n ≥ 1`,
`_calc_tick_increment` computes `step = (stop - start) / n`, takes
`power = floor(log10(step))` (characterized by `10^power ≤ step < 10^(power+1)`)
and `error = step / 10^power`, selects the multiplier 10 if `error ≥ √50`, else 5
if `error ≥ √10`, else 2 if `error ≥ √2`, else 1, and returns
`multiplier * 10^power` when `power ≥ 0` and the negative reciprocal encoding
`-(10^(-power)) / multiplier` otherwise. -/
theorem tick_increment_formula (start stop : ℚ) (n : ℤ)
    (hlt : start < stop) (hn : 1 ≤ n) :
    ∃ power : ℤ,
      (10 : ℚ) ^ power ≤ (stop - start) / (n : ℚ) ∧
      (stop - start) / (n : ℚ) < (10 : ℚ) ^ (power + 1) ∧
      ∀ error : ℚ, error = ((stop - start) / (n : ℚ)) / (10 : ℚ) ^ power →
        ((Real.sqrt 50 ≤ (error : ℝ) →
          _calc_tick_increment start stop n =
            some (if 0 ≤ power then 10 * (10 : ℚ) ^ power
              else -((10 : ℚ) ^ (-power)) / 10)) ∧
         (Real.sqrt 10 ≤ (error : ℝ) → (error : ℝ) < Real.sqrt 50 →
          _calc_tick_increment start stop n =
            some (if 0 ≤ power then 5 * (10 : ℚ) ^ power
              else -((10 : ℚ) ^ (-power)) / 5)) ∧
         (Real.sqrt 2 ≤ (error : ℝ) → (error : ℝ) < Real.sqrt 10 →
          _calc_tick_increment start stop n =
            some (if 0 ≤ power then 2 * (10 : ℚ) ^ power
              else -((10 : ℚ) ^ (-power)) / 2)) ∧
         ((error : ℝ) < Real.sqrt 2 →
          _calc_tick_increment start stop n =
            some (if 0 ≤ power then 1 * (10 : ℚ) ^ power
              else -((10 : ℚ) ^ (-power)) / 1))) := by
  have hnpos : (0 : ℚ) < (n : ℚ) := by exact_mod_cast (by omega : (0 : ℤ) < n)
  have hstep : 0 < (stop - start) / (n : ℚ) := div_pos (by linarith) hnpos
  obtain ⟨hlo, hhi⟩ := floorLog10_spec ((stop - start) / (n : ℚ)) hstep
  refine ⟨floorLog10 ((stop - start) / (n : ℚ)), hlo, hhi, ?_⟩
  intro error herr
  have hepos : 0 < error := by
    rw [herr]
    exact div_pos hstep (zpow_pos (by norm_num) _)
  have heposR : (0 : ℝ) ≤ (error : ℝ) := by exact_mod_cast hepos.le
  have h50 : Real.sqrt 50 ≤ (error : ℝ) ↔ (50 : ℚ) ≤ error ^ 2 := by
    rw [Real.sqrt_le_left heposR]
    constructor
    · intro hx; exact_mod_cast hx
    · intro hx; exact_mod_cast hx
  have h10 : Real.sqrt 10 ≤ (error : ℝ) ↔ (10 : ℚ) ≤ error ^ 2 := by
    rw [Real.sqrt_le_left heposR]
    constructor
    · intro hx; exact_mod_cast hx
    · intro hx; exact_mod_cast hx
  have h2 : Real.sqrt 2 ≤ (error : ℝ) ↔ (2 : ℚ) ≤ error ^ 2 := by
    rw [Real.sqrt_le_left heposR]
    constructor
    · intro hx; exact_mod_cast hx
    · intro hx; exact_mod_cast hx
  have h50l : (error : ℝ) < Real.sqrt 50 ↔ error ^ 2 < (50 : ℚ) := by
    rw [Real.lt_sqrt heposR]
    constructor
    · intro hx; exact_mod_cast hx
    · intro hx; exact_mod_cast hx
  have h10l : (error : ℝ) < Real.sqrt 10 ↔ error ^ 2 < (10 : ℚ) := by
    rw [Real.lt_sqrt heposR]
    constructor
    · intro hx; exact_mod_cast hx
    · intro hx; exact_mod_cast hx
  have h2l : (error : ℝ) < Real.sqrt 2 ↔ error ^ 2 < (2 : ℚ) := by
    rw [Real.lt_sqrt heposR]
    constructor
    · intro hx; exact_mod_cast hx
    · intro hx; exact_mod_cast hx
  rw [calcTick_eq start stop n hlt hn]
  simp only [tickIncOf]
  rw [← herr]
  refine ⟨?_, ?_, ?_, ?_⟩
  · intro ha
    rw [if_pos (h50.1 ha)]
  · intro ha hb
    rw [if_neg (not_le.2 (h50l.1 hb)), if_pos (h10.1 ha)]
  · intro ha hb
    have hs : error ^ 2 < 10 := h10l.1 hb
    rw [if_neg (not_le.2 (hs.trans_le (by norm_num))), if_neg (not_le.2 hs),
      if_pos (h2.1 ha)]
  · intro ha
    have hs : error ^ 2 < 2 := h2l.1 ha
    rw [if_neg (not_le.2 (hs.trans_le (by norm_num))),
      if_neg (not_le.2 (hs.trans_le (by norm_num))),
      if_neg (not_le.2 hs)]

/-- Witness for C1 on the interval `(0, 10)` with 5 requested ticks. -/
theorem tick_increment_formula_witness :
    ((0 : ℚ) < 10) ∧ ((1 : ℤ) ≤ 5) ∧
    ∃ power : ℤ,
      (10 : ℚ) ^ power ≤ ((10 : ℚ) - 0) / ((5 : ℤ) : ℚ) ∧
      ((10 : ℚ) - 0) / ((5 : ℤ) : ℚ) < (10 : ℚ) ^ (power + 1) ∧
      ∀ error : ℚ, error = (((10 : ℚ) - 0) / ((5 : ℤ) : ℚ)) / (10 : ℚ) ^ power →
        ((Real.sqrt 50 ≤ (error : ℝ) →
          _calc_tick_increment 0 10 5 =
            some (if 0 ≤ power then 10 * (10 : ℚ) ^ power
              else -((10 : ℚ) ^ (-power)) / 10)) ∧
         (Real.sqrt 10 ≤ (error : ℝ) → (error : ℝ) < Real.sqrt 50 →
          _calc_tick_increment 0 10 5 =
            some (if 0 ≤ power then 5 * (10 : ℚ) ^ power
              else -((10 : ℚ) ^ (-power)) / 5)) ∧
         (Real.sqrt 2 ≤ (error : ℝ) → (error : ℝ) < Real.sqrt 10 →
          _calc_tick_increment 0 10 5 =
            some (if 0 ≤ power then 2 * (10 : ℚ) ^ power
              else -((10 : ℚ) ^ (-power)) / 2)) ∧
         ((error : ℝ) < Real.sqrt 2 →
          _calc_tick_increment 0 10 5 =
            some (if 0 ≤ power then 1 * (10 : ℚ) ^ power
              else -((10 : ℚ) ^ (-power)) / 1))) :=
  ⟨by norm_num, by norm_num, tick_increment_formula 0 10 5 (by norm_num) (by norm_num)⟩

end Hist
